import Mathlib

/-!
Verification of the keylogger event-coalescing core.

The definitions below are a shallow embedding of `src/input.rs` and of the
body of the event loop of `main` in `src/main.rs`.  Key codes (`u16`) are
modelled as `Nat`, event values (`i32`) as `Int`.  A call of
`Vec::last().unwrap()` on an empty vector panics; panicking paths are
modelled by `Option`, with `none` standing for the panic.
-/

namespace Keylogger

/-- `MAX_KEYS` from `input.rs`. -/
def MAX_KEYS : Nat := 127

/-- `EV_KEY` from `input.rs`. -/
def EV_KEY : Nat := 1

/-- `KEY_RELEASE` from `input.rs`. -/
def KEY_RELEASE : Int := 0

/-- `KEY_PRESS` from `input.rs`. -/
def KEY_PRESS : Int := 1

/-- `UK`, the unknown-key sentinel string from `input.rs`. -/
def UK : String := "<UK>"

/-- The `KEY_NAMES` table from `input.rs`, transliterated entry by entry
(127 entries, indices 0 to 126). -/
def KEY_NAMES : List String := [
  UK, "<ESC>",
  "1", "2", "3", "4", "5", "6", "7", "8", "9", "0", "-", "=",
  "<Backspace>", "<Tab>",
  "q", "w", "e", "r", "t", "y", "u", "i", "o", "p",
  "[", "]", "<Enter>", "<LCtrl>",
  "a", "s", "d", "f", "g", "h", "j", "k", "l", ";",
  "\x27", "`", "<LShift>",
  "\\", "z", "x", "c", "v", "b", "n", "m", ",", ".", "/",
  "<RShift>",
  "<KP*>",
  "<LAlt>", "<Space>", "<CapsLock>",
  "<F1>", "<F2>", "<F3>", "<F4>", "<F5>", "<F6>", "<F7>", "<F8>", "<F9>", "<F10>",
  "<NumLock>", "<ScrollLock>",
  "<KP7>", "<KP8>", "<KP9>",
  "<KP->",
  "<KP4>", "<KP5>", "<KP6>",
  "<KP+>",
  "<KP1>", "<KP2>", "<KP3>", "<KP0>",
  "<KP.>",
  UK, UK, "\\",
  "<F11>", "<F12>",
  UK, UK, UK, UK, UK, UK, UK,
  "<KPEnter>", "<RCtrl>", "<KP/>", "<SysRq>", "<RAlt>", UK,
  "<Home>", "<Up>", "<PageUp>", "<Left>", "<Right>", "<End>", "<Down>",
  "<PageDown>", "<Insert>", "<Delete>",
  UK, UK, UK, UK, UK, UK, UK, UK, UK, UK, UK, UK, UK,
  "<LMod4>", "<RMod4>"]

/-- `get_key_text` from `input.rs`: branch, then index into `KEY_NAMES`.
Array indexing is total here via `getD`; see `get_key_text?` for the
panic-aware version of the same lookup. -/
def get_key_text (code : Nat) : String :=
  if code < MAX_KEYS then KEY_NAMES.getD code UK else UK

/-- `get_key_text` with the array indexing `KEY_NAMES[code as usize]`
modelled as a partial operation: `none` would be an out-of-bounds panic. -/
def get_key_text? (code : Nat) : Option String :=
  if code < MAX_KEYS then KEY_NAMES.get? code else some UK

/-- `is_key_event` from `input.rs`. -/
def is_key_event (type_ : Nat) : Bool := type_ == EV_KEY

/-- `is_key_press` from `input.rs`. -/
def is_key_press (value : Int) : Bool := value == KEY_PRESS

/-- `is_key_release` from `input.rs`. -/
def is_key_release (value : Int) : Bool := value == KEY_RELEASE

/-- `InputEvent` from `input.rs` (the two time fields are carried but
ignored by the core, as in the source). -/
structure InputEvent where
  tv_sec : Int
  tv_usec : Int
  type_ : Nat
  code : Nat
  value : Int
deriving Repr, DecidableEq

/-- One line written by `print_key` in `main.rs`: the sign character and
the key label produced by `get_key_text`. -/
structure LogEntry where
  sign : Char
  text : String
deriving Repr, DecidableEq

/-- `print_key(code, sign, ..)` from `main.rs` as the log entry it appends. -/
def print_key (code : Nat) (sign : Char) : LogEntry :=
  ⟨sign, get_key_text code⟩

/-- The loop-local mutable state of `main`: the `holding_down` vector and
the `key_was_just_pressed` flag. -/
structure MachineState where
  holding_down : List Nat
  key_was_just_pressed : Bool
deriving Repr, DecidableEq

/-- The state at the top of the loop in `main`: empty vector, flag false. -/
def initState : MachineState := ⟨[], false⟩

/-- `Iterator::position` as used on `holding_down.iter()` in `main.rs`:
index of the first element satisfying the predicate. -/
def position (p : Nat → Bool) : List Nat → Option Nat
  | [] => none
  | x :: l => if p x then some 0 else (position p l).map (· + 1)

/-- One iteration of the event loop of `main` (lines 65-110 of `main.rs`),
for an already-read `InputEvent`.  Returns the log entries printed and the
updated state, or `none` where the source would panic
(`holding_down.last().unwrap()` on an empty vector). -/
def mainStep (s : MachineState) (e : InputEvent) : Option (List LogEntry × MachineState) :=
  if is_key_event e.type_ then
    if is_key_press e.value then
      if s.key_was_just_pressed then
        match s.holding_down.getLast? with
        | none => none
        | some top =>
          some ([print_key top '+'], ⟨s.holding_down ++ [e.code], true⟩)
      else
        some ([], ⟨s.holding_down ++ [e.code], true⟩)
    else if is_key_release e.value then
      match position (fun x => x == e.code) s.holding_down with
      | some pos =>
        if pos + 1 = s.holding_down.length then
          if s.key_was_just_pressed then
            some ([print_key e.code '±'], ⟨s.holding_down.dropLast, false⟩)
          else
            some ([print_key e.code '-'], ⟨s.holding_down.dropLast, false⟩)
        else
          if s.key_was_just_pressed then
            match s.holding_down.getLast? with
            | none => none
            | some top =>
              some ([print_key top '+', print_key e.code '-'],
                ⟨s.holding_down.eraseIdx pos, false⟩)
          else
            some ([print_key e.code '-'], ⟨s.holding_down.eraseIdx pos, false⟩)
      | none =>
        some ([print_key e.code '?'], s)
    else
      some ([], s)
  else
    some ([], s)

/-- Iterating the loop over a list of events, concatenating the printed
entries; `none` as soon as one iteration panics. -/
def runEvents : MachineState → List InputEvent → Option (List LogEntry × MachineState)
  | s, [] => some ([], s)
  | s, e :: es =>
    match mainStep s e with
    | none => none
    | some (out, s') =>
      match runEvents s' es with
      | none => none
      | some (outs, s'') => some (out ++ outs, s'')

/-- A raw key-press record for code `c` (type `EV_KEY`, value `KEY_PRESS`). -/
def pressEvent (c : Nat) : InputEvent := ⟨0, 0, EV_KEY, c, KEY_PRESS⟩

/-- A raw key-release record for code `c` (type `EV_KEY`, value `KEY_RELEASE`). -/
def releaseEvent (c : Nat) : InputEvent := ⟨0, 0, EV_KEY, c, KEY_RELEASE⟩

/-- The codes inside the known range whose `KEY_NAMES` entry is the
reserved/unassigned sentinel `UK` in `input.rs`. -/
def reservedCodes : List Nat :=
  [0, 84, 85, 89, 90, 91, 92, 93, 94, 95, 101,
   112, 113, 114, 115, 116, 117, 118, 119, 120, 121, 122, 123, 124]

/-! ### Helper lemmas about `position` and list surgery -/

lemma position_eq_none_iff (c : Nat) :
    ∀ l : List Nat, position (fun x => x == c) l = none ↔ c ∉ l := by
  intro l
  induction l with
  | nil => simp [position]
  | cons a l ih =>
    by_cases h : a = c
    · simp [position, h]
    · simp [position, h, ih, Ne.symm h]

lemma position_some_of_mem {c : Nat} {l : List Nat} (h : c ∈ l) :
    ∃ pos, position (fun x => x == c) l = some pos := by
  cases hp : position (fun x => x == c) l with
  | none => exact absurd ((position_eq_none_iff c l).mp hp) (by simp [h])
  | some pos => exact ⟨pos, rfl⟩

lemma mem_of_position_some {c : Nat} {l : List Nat} {pos : Nat}
    (h : position (fun x => x == c) l = some pos) : c ∈ l := by
  by_contra hc
  rw [(position_eq_none_iff c l).mpr hc] at h
  exact Option.noConfusion h

lemma eraseIdx_position_eq_erase (c : Nat) :
    ∀ (l : List Nat) (pos : Nat), position (fun x => x == c) l = some pos →
      l.eraseIdx pos = l.erase c := by
  intro l
  induction l with
  | nil => intro pos h; simp [position] at h
  | cons a l ih =>
    intro pos h
    by_cases hac : a = c
    · simp [position, hac] at h
      subst hac h
      simp [List.eraseIdx, List.erase_cons]
    · simp [position, hac] at h
      obtain ⟨pos', hpos', rfl⟩ := h
      simp [List.eraseIdx, List.erase_cons, hac, ih pos' hpos']

lemma eraseIdx_last_eq_dropLast :
    ∀ (l : List Nat) (pos : Nat), pos + 1 = l.length → l.eraseIdx pos = l.dropLast := by
  intro l
  induction l with
  | nil => intro pos h; simp at h
  | cons a l ih =>
    intro pos h
    cases l with
    | nil =>
      simp at h
      subst h
      rfl
    | cons b l' =>
      cases pos with
      | zero => simp at h
      | succ pos' =>
        have : pos' + 1 = (b :: l').length := by
          simpa using h
        simp [List.eraseIdx, List.dropLast, ih pos' this]

lemma getLast?_some_of_ne_nil {l : List Nat} (h : l ≠ []) :
    ∃ top, l.getLast? = some top := by
  cases hl : l.getLast? with
  | none => exact absurd (List.getLast?_eq_none_iff.mp hl) h
  | some top => exact ⟨top, rfl⟩

/-- Core helper: under a key event classified as a release, when the
released code is in `holding_down`, the step succeeds, removes the first
occurrence of the code and clears the flag, in both the last-entry branch
and the out-of-order branch. -/
lemma mainStep_release_mem (s : MachineState) (e : InputEvent)
    (hev : is_key_event e.type_ = true)
    (hnp : is_key_press e.value = false)
    (hr : is_key_release e.value = true)
    (h : e.code ∈ s.holding_down) :
    ∃ out, mainStep s e =
      some (out, ⟨s.holding_down.erase e.code, false⟩) := by
  obtain ⟨pos, hpos⟩ := position_some_of_mem h
  have herase := eraseIdx_position_eq_erase e.code s.holding_down pos hpos
  have hstep : mainStep s e =
      match position (fun x => x == e.code) s.holding_down with
      | some pos =>
        if pos + 1 = s.holding_down.length then
          if s.key_was_just_pressed then
            some ([print_key e.code '±'], ⟨s.holding_down.dropLast, false⟩)
          else
            some ([print_key e.code '-'], ⟨s.holding_down.dropLast, false⟩)
        else
          if s.key_was_just_pressed then
            match s.holding_down.getLast? with
            | none => none
            | some top =>
              some ([print_key top '+', print_key e.code '-'],
                ⟨s.holding_down.eraseIdx pos, false⟩)
          else
            some ([print_key e.code '-'], ⟨s.holding_down.eraseIdx pos, false⟩)
      | none => some ([print_key e.code '?'], s) := by
    simp [mainStep, hev, hnp, hr]
  rw [hstep, hpos]
  by_cases hlast : pos + 1 = s.holding_down.length
  · have hdrop : s.holding_down.dropLast = s.holding_down.erase e.code := by
      rw [← eraseIdx_last_eq_dropLast s.holding_down pos hlast, herase]
    by_cases hf : s.key_was_just_pressed
    · exact ⟨[print_key e.code '±'], by simp [hlast, hf, hdrop]⟩
    · exact ⟨[print_key e.code '-'], by simp [hlast, hf, hdrop]⟩
  · by_cases hf : s.key_was_just_pressed
    · have hne : s.holding_down ≠ [] := by
        intro hnil; rw [hnil] at h; exact absurd h (List.not_mem_nil e.code)
      obtain ⟨top, htop⟩ := getLast?_some_of_ne_nil hne
      exact ⟨[print_key top '+', print_key e.code '-'],
        by simp [hlast, hf, htop, herase]⟩
    · exact ⟨[print_key e.code '-'], by simp [hlast, hf, herase]⟩

/-- `mainStep_release_mem` specialised to a `releaseEvent` record. -/
lemma mainStep_releaseEvent_mem (s : MachineState) (c : Nat)
    (h : c ∈ s.holding_down) :
    ∃ out, mainStep s (releaseEvent c) =
      some (out, ⟨s.holding_down.erase c, false⟩) :=
  mainStep_release_mem s (releaseEvent c) rfl rfl rfl h

/-! ### Claim theorems -/

/-- C1: from the initial state (empty `holding_down`, flag false), a press
of `x` immediately followed by a release of `x` emits exactly one entry,
the combined `±` entry with the label of `x`, and returns to the initial
state. -/
theorem press_release_coalesces (x : Nat) :
    runEvents initState [pressEvent x, releaseEvent x] =
      some ([print_key x '±'], initState) := by
  simp [runEvents, mainStep, initState, pressEvent, releaseEvent,
    is_key_event, is_key_press, is_key_release, EV_KEY, KEY_PRESS,
    KEY_RELEASE, position]

/-- C2: from the initial state, Press(a), Press(b), Release(a), Release(b)
with distinct codes emits exactly `[+a, +b, -a, -b]` in that order and
returns to the initial state: the second press flushes `+a`, the
out-of-order release of `a` flushes `+b` then emits `-a`, and the final
release of `b` emits a plain `-b`. -/
theorem out_of_order_release_sequence (a b : Nat) (h : a ≠ b) :
    runEvents initState
        [pressEvent a, pressEvent b, releaseEvent a, releaseEvent b] =
      some ([print_key a '+', print_key b '+', print_key a '-', print_key b '-'],
        initState) := by
  simp [runEvents, mainStep, initState, pressEvent, releaseEvent,
    is_key_event, is_key_press, is_key_release, EV_KEY, KEY_PRESS,
    KEY_RELEASE, position]

/-- C2 witness at a = 30, b = 31. -/
theorem out_of_order_release_sequence_witness :
    (30 : Nat) ≠ 31 ∧
    runEvents initState
        [pressEvent 30, pressEvent 31, releaseEvent 30, releaseEvent 31] =
      some ([print_key 30 '+', print_key 31 '+', print_key 30 '-', print_key 31 '-'],
        initState) :=
  ⟨by decide, out_of_order_release_sequence 30 31 (by decide)⟩

/-- C3: for any state, a release of a code found in `holding_down` —
last entry or out-of-order — succeeds, leaves the flag false and removes
the first occurrence of the code. -/
theorem release_found_clears_flag (s : MachineState) (c : Nat)
    (h : c ∈ s.holding_down) :
    ∃ out s', mainStep s (releaseEvent c) = some (out, s') ∧
      s'.key_was_just_pressed = false ∧
      s'.holding_down = s.holding_down.erase c := by
  obtain ⟨out, hout⟩ := mainStep_releaseEvent_mem s c h
  exact ⟨out, ⟨s.holding_down.erase c, false⟩, hout, rfl, rfl⟩

/-- C3 witness: releasing 30 out of `[30, 31]` (out-of-order, flag set). -/
theorem release_found_clears_flag_witness :
    (30 : Nat) ∈ [30, 31] ∧
    ∃ out s', mainStep ⟨[30, 31], true⟩ (releaseEvent 30) = some (out, s') ∧
      s'.key_was_just_pressed = false ∧
      s'.holding_down = [30, 31].erase 30 :=
  ⟨by decide, release_found_clears_flag ⟨[30, 31], true⟩ 30 (by decide)⟩

/-- C4: for any state, a release of a code absent from `holding_down`
emits exactly the orphan `?` entry and leaves the whole state (vector and
flag) unchanged. -/
theorem orphan_release_no_effect (s : MachineState) (c : Nat)
    (h : c ∉ s.holding_down) :
    mainStep s (releaseEvent c) = some ([print_key c '?'], s) := by
  have hpos : position (fun x => x == c) s.holding_down = none :=
    (position_eq_none_iff c s.holding_down).mpr h
  simp [mainStep, releaseEvent, is_key_event, is_key_press, is_key_release,
    EV_KEY, KEY_PRESS, KEY_RELEASE, hpos]

/-- C4 witness: releasing 99 when holding `[30]` with the flag set. -/
theorem orphan_release_no_effect_witness :
    (99 : Nat) ∉ [30] ∧
    mainStep ⟨[30], true⟩ (releaseEvent 99) =
      some ([print_key 99 '?'], ⟨[30], true⟩) :=
  ⟨by decide, orphan_release_no_effect ⟨[30], true⟩ 99 (by decide)⟩

/-- C8: for any state, a raw event that is not a key event, or a key event
whose value is neither press (1) nor release (0), emits nothing and leaves
the state unchanged. -/
theorem non_key_or_repeat_no_effect (s : MachineState) (e : InputEvent)
    (h : is_key_event e.type_ = false ∨
      (is_key_press e.value = false ∧ is_key_release e.value = false)) :
    mainStep s e = some ([], s) := by
  rcases h with h | ⟨h1, h2⟩
  · simp [mainStep, h]
  · simp [mainStep, h1, h2]

/-- C8 witness: a non-key event (type 2) and a key-repeat event (value 2)
both leave the state `⟨[30], true⟩` unchanged and emit nothing. -/
theorem non_key_or_repeat_no_effect_witness :
    (is_key_event (2 : Nat) = false ∨
      (is_key_press (1 : Int) = false ∧ is_key_release (1 : Int) = false)) ∧
    mainStep ⟨[30], true⟩ ⟨0, 0, 2, 5, 1⟩ = some ([], ⟨[30], true⟩) :=
  ⟨by decide, non_key_or_repeat_no_effect ⟨[30], true⟩ ⟨0, 0, 2, 5, 1⟩ (by decide)⟩

/-- One loop iteration never panics and preserves the invariant that the
flag implies a non-empty `holding_down`. -/
lemma mainStep_inv (s : MachineState) (e : InputEvent)
    (h : s.key_was_just_pressed = true → s.holding_down ≠ []) :
    ∃ out s', mainStep s e = some (out, s') ∧
      (s'.key_was_just_pressed = true → s'.holding_down ≠ []) := by
  by_cases hev : is_key_event e.type_ = true
  · by_cases hp : is_key_press e.value = true
    · by_cases hf : s.key_was_just_pressed = true
      · obtain ⟨top, htop⟩ := getLast?_some_of_ne_nil (h hf)
        refine ⟨[print_key top '+'], ⟨s.holding_down ++ [e.code], true⟩,
          by simp [mainStep, hev, hp, hf, htop], by simp⟩
      · refine ⟨[], ⟨s.holding_down ++ [e.code], true⟩,
          by simp [mainStep, hev, hp, hf], by simp⟩
    · by_cases hr : is_key_release e.value = true
      · cases hpos : position (fun x => x == e.code) s.holding_down with
        | none =>
          refine ⟨[print_key e.code '?'], s,
            by simp [mainStep, hev, hp, hr, hpos], h⟩
        | some pos =>
          obtain ⟨out, hout⟩ := mainStep_release_mem s e hev
            (Bool.eq_false_iff.mpr hp) hr (mem_of_position_some hpos)
          exact ⟨out, ⟨s.holding_down.erase e.code, false⟩, hout, by simp⟩
      · refine ⟨[], s,
          by simp [mainStep, hev, hp, hr], h⟩
  · exact ⟨[], s, by simp [mainStep, hev], h⟩

/-- Running any list of events from an invariant state never panics and
re-establishes the invariant. -/
lemma runEvents_inv :
    ∀ (es : List InputEvent) (s : MachineState),
      (s.key_was_just_pressed = true → s.holding_down ≠ []) →
      ∃ out s', runEvents s es = some (out, s') ∧
        (s'.key_was_just_pressed = true → s'.holding_down ≠ []) := by
  intro es
  induction es with
  | nil => intro s h; exact ⟨[], s, rfl, h⟩
  | cons e es ih =>
    intro s h
    obtain ⟨out1, s1, h1, hinv1⟩ := mainStep_inv s e h
    obtain ⟨out2, s2, h2, hinv2⟩ := ih s1 hinv1
    exact ⟨out1 ++ out2, s2, by simp [runEvents, h1, h2], hinv2⟩

/-- C9: every run from the initial state succeeds (so the
`holding_down.last().unwrap()` calls never see an empty vector), and in
every reachable state a set `key_was_just_pressed` flag implies a
non-empty `holding_down`. -/
theorem flag_implies_held_nonempty (es : List InputEvent) :
    ∃ out s', runEvents initState es = some (out, s') ∧
      (s'.key_was_just_pressed = true → s'.holding_down ≠ []) :=
  runEvents_inv es initState (by simp [initState])

/-- Splitting a run over an append of event lists. -/
lemma runEvents_append_some :
    ∀ {l1 : List InputEvent} {s s1 s2 : MachineState}
      {l2 : List InputEvent} {o1 o2 : List LogEntry},
      runEvents s l1 = some (o1, s1) → runEvents s1 l2 = some (o2, s2) →
      runEvents s (l1 ++ l2) = some (o1 ++ o2, s2) := by
  intro l1
  induction l1 with
  | nil =>
    intro s s1 s2 l2 o1 o2 h1 h2
    simp [runEvents] at h1
    obtain ⟨rfl, rfl⟩ := h1
    simpa using h2
  | cons e l1 ih =>
    intro s s1 s2 l2 o1 o2 h1 h2
    simp only [runEvents, List.cons_append] at h1 ⊢
    cases hm : mainStep s e with
    | none => simp [hm] at h1
    | some p =>
      obtain ⟨o, s'⟩ := p
      simp only [hm] at h1 ⊢
      cases hr : runEvents s' l1 with
      | none => simp [hr] at h1
      | some q =>
        obtain ⟨o1', s1'⟩ := q
        simp only [hr, Option.some.injEq, Prod.mk.injEq] at h1
        obtain ⟨rfl, rfl⟩ := h1
        simp only [List.append_eq]
        rw [ih hr h2]
        simp

/-- The press phase: any list of presses from a state satisfying the
invariant appends the pressed codes in order, leaves the flag true (unless
no press happened), and never panics. -/
lemma runEvents_presses :
    ∀ (ps : List Nat) (hd : List Nat) (f : Bool),
      (f = true → hd ≠ []) →
      ∃ out, runEvents ⟨hd, f⟩ (ps.map pressEvent) =
        some (out, ⟨hd ++ ps, if ps.isEmpty then f else true⟩) := by
  intro ps
  induction ps with
  | nil => intro hd f h; exact ⟨[], by simp [runEvents]⟩
  | cons c ps ih =>
    intro hd f h
    by_cases hf : f = true
    · obtain ⟨top, htop⟩ := getLast?_some_of_ne_nil (h hf)
      have hstep : mainStep ⟨hd, f⟩ (pressEvent c) =
          some ([print_key top '+'], ⟨hd ++ [c], true⟩) := by
        simp [mainStep, pressEvent, is_key_event, is_key_press, EV_KEY,
          KEY_PRESS, hf, htop]
      obtain ⟨out, hout⟩ := ih (hd ++ [c]) true (by simp)
      refine ⟨[print_key top '+'] ++ out, ?_⟩
      simp only [List.map_cons, runEvents, hstep, hout]
      simp
    · have hstep : mainStep ⟨hd, f⟩ (pressEvent c) =
          some ([], ⟨hd ++ [c], true⟩) := by
        simp [mainStep, pressEvent, is_key_event, is_key_press, EV_KEY,
          KEY_PRESS, hf]
      obtain ⟨out, hout⟩ := ih (hd ++ [c]) true (by simp)
      refine ⟨out, ?_⟩
      simp only [List.map_cons, runEvents, hstep, hout]
      simp

/-- The release phase: releasing a permutation of the held codes drains
`holding_down` completely and ends with the flag false. -/
lemma runEvents_releases :
    ∀ (rs : List Nat) (hd : List Nat) (f : Bool),
      rs.Perm hd → rs ≠ [] →
      ∃ out, runEvents ⟨hd, f⟩ (rs.map releaseEvent) =
        some (out, ⟨[], false⟩) := by
  intro rs
  induction rs with
  | nil => intro hd f _ hne; exact absurd rfl hne
  | cons r rs ih =>
    intro hd f hperm hne
    have hmem : r ∈ hd := hperm.mem_iff.mp (List.mem_cons_self r rs)
    obtain ⟨out1, hout1⟩ := mainStep_releaseEvent_mem ⟨hd, f⟩ r hmem
    by_cases hrs : rs = []
    · subst hrs
      have hhd : hd = [r] := List.perm_singleton.mp hperm.symm
      subst hhd
      refine ⟨out1, ?_⟩
      simp only [List.map_cons, List.map_nil, runEvents, hout1]
      simp [List.erase_cons]
    · have hperm' : rs.Perm (hd.erase r) :=
        ((hperm.trans (List.perm_cons_erase hmem)).cons_inv)
      obtain ⟨out2, hout2⟩ := ih (hd.erase r) false hperm' hrs
      refine ⟨out1 ++ out2, ?_⟩
      simp only [List.map_cons, runEvents, hout1, hout2]

/-- C5: from the initial state, pressing any list of pairwise-distinct
codes and then releasing exactly those codes in any order drains
`holding_down` and clears the flag: the state round-trips back to the
initial state. -/
theorem balanced_sequence_round_trip (ps rs : List Nat)
    (hnd : ps.Nodup) (hperm : rs.Perm ps) :
    ∃ out, runEvents initState (ps.map pressEvent ++ rs.map releaseEvent) =
      some (out, initState) := by
  by_cases hps : ps = []
  · subst hps
    have hrs : rs = [] := hperm.eq_nil
    subst hrs
    exact ⟨[], rfl⟩
  · obtain ⟨out1, hout1⟩ := runEvents_presses ps [] false (by simp)
    have hps' : ps.isEmpty = false := by
      simpa [List.isEmpty_iff] using hps
    rw [hps'] at hout1
    simp only [List.nil_append, if_false, Bool.false_eq_true] at hout1
    have hrs : rs ≠ [] := by
      intro h
      subst h
      exact hps hperm.symm.eq_nil
    obtain ⟨out2, hout2⟩ := runEvents_releases rs ps true hperm hrs
    exact ⟨out1 ++ out2, runEvents_append_some hout1 hout2⟩

/-- C5 witness: presses of `[30, 31]` followed by releases `[31, 30]`. -/
theorem balanced_sequence_round_trip_witness :
    ([30, 31] : List Nat).Nodup ∧ ([31, 30] : List Nat).Perm [30, 31] ∧
    ∃ out, runEvents initState
        (([30, 31] : List Nat).map pressEvent ++
          ([31, 30] : List Nat).map releaseEvent) =
      some (out, initState) :=
  ⟨by decide, by decide,
    balanced_sequence_round_trip [30, 31] [31, 30] (by decide) (by decide)⟩

/-- C6: for any state and any classified event, a release emits at most
two entries (the release or orphan entry plus at most one flush), and a
press emits at most one entry, which can only be the flush of the
previously pressed top entry (emitted only when the flag was set), never
an entry for the newly pressed key. -/
theorem single_event_emission_bounds (s : MachineState) (e : InputEvent)
    (entries : List LogEntry) (s' : MachineState)
    (h : mainStep s e = some (entries, s')) :
    (is_key_event e.type_ = true → is_key_release e.value = true →
      entries.length ≤ 2) ∧
    (is_key_event e.type_ = true → is_key_press e.value = true →
      entries.length ≤ 1 ∧
      ∀ l ∈ entries, s.key_was_just_pressed = true ∧
        ∃ top, s.holding_down.getLast? = some top ∧ l = print_key top '+') := by
  by_cases hev : is_key_event e.type_ = true
  · by_cases hp : is_key_press e.value = true
    · by_cases hf : s.key_was_just_pressed = true
      · cases htop : s.holding_down.getLast? with
        | none => simp [mainStep, hev, hp, hf, htop] at h
        | some top =>
          simp [mainStep, hev, hp, hf, htop] at h
          obtain ⟨h1, _⟩ := h
          subst h1
          refine ⟨fun _ _ => by simp, fun _ _ => ⟨by simp, ?_⟩⟩
          intro l hl
          simp at hl
          subst hl
          exact ⟨hf, top, rfl, rfl⟩
      · simp [mainStep, hev, hp, hf] at h
        obtain ⟨h1, _⟩ := h
        subst h1
        refine ⟨fun _ _ => by simp, fun _ _ => ⟨by simp, ?_⟩⟩
        intro l hl
        simp at hl
    · refine ⟨?_, fun _ hp' => absurd hp' hp⟩
      intro _ hr
      cases hpos : position (fun x => x == e.code) s.holding_down with
      | none =>
        simp [mainStep, hev, hp, hr, hpos] at h
        obtain ⟨h1, _⟩ := h
        subst h1
        simp
      | some pos =>
        by_cases hlast : pos + 1 = s.holding_down.length
        · by_cases hf : s.key_was_just_pressed = true
          · simp [mainStep, hev, hp, hr, hpos, hlast, hf] at h
            obtain ⟨h1, _⟩ := h
            subst h1
            simp
          · simp [mainStep, hev, hp, hr, hpos, hlast, hf] at h
            obtain ⟨h1, _⟩ := h
            subst h1
            simp
        · by_cases hf : s.key_was_just_pressed = true
          · cases htop : s.holding_down.getLast? with
            | none => simp [mainStep, hev, hp, hr, hpos, hlast, hf, htop] at h
            | some top =>
              simp [mainStep, hev, hp, hr, hpos, hlast, hf, htop] at h
              obtain ⟨h1, _⟩ := h
              subst h1
              simp
          · simp [mainStep, hev, hp, hr, hpos, hlast, hf] at h
            obtain ⟨h1, _⟩ := h
            subst h1
            simp
  · exact ⟨fun hev' _ => absurd hev' hev, fun hev' _ => absurd hev' hev⟩

/-- C6 witness: a press of 31 while 30 is held with the flag set flushes
exactly the one entry `+label(30)`. -/
theorem single_event_emission_bounds_witness :
    mainStep ⟨[30], true⟩ (pressEvent 31) =
      some ([print_key 30 '+'], ⟨[30, 31], true⟩) ∧
    ((is_key_event (pressEvent 31).type_ = true →
        is_key_release (pressEvent 31).value = true →
        [print_key 30 '+'].length ≤ 2) ∧
      (is_key_event (pressEvent 31).type_ = true →
        is_key_press (pressEvent 31).value = true →
        [print_key 30 '+'].length ≤ 1 ∧
        ∀ l ∈ [print_key 30 '+'],
          (MachineState.mk [30] true).key_was_just_pressed = true ∧
          ∃ top, (MachineState.mk [30] true).holding_down.getLast? = some top ∧
            l = print_key top '+')) :=
  ⟨by decide,
    single_event_emission_bounds ⟨[30], true⟩ (pressEvent 31)
      [print_key 30 '+'] ⟨[30, 31], true⟩ (by decide)⟩

/-- C7: the key-name lookup returns the sentinel `<UK>` for every code
outside the known range (`code ≥ 127`) and for every reserved code inside
it, and the table index it takes is always in bounds (the lookup returns
`some`, never the out-of-bounds panic). -/
theorem unknown_code_sentinel (code : Nat)
    (h : MAX_KEYS ≤ code ∨ code ∈ reservedCodes) :
    get_key_text? code = some UK := by
  rcases h with h | h
  · have hn : ¬ code < MAX_KEYS := by omega
    simp [get_key_text?, hn]
  · fin_cases h <;> decide

/-- C7 witness: code 200 (out of range) maps to the sentinel. -/
theorem unknown_code_sentinel_witness :
    (MAX_KEYS ≤ 200 ∨ (200 : Nat) ∈ reservedCodes) ∧
    get_key_text? 200 = some UK :=
  ⟨by decide, unknown_code_sentinel 200 (by decide)⟩

/-- The first occurrence of a code held at least twice is never the last
entry of the vector. -/
lemma position_of_count_two {c : Nat} :
    ∀ {l : List Nat}, 2 ≤ l.count c →
      ∃ pos, position (fun x => x == c) l = some pos ∧ pos + 1 ≠ l.length := by
  intro l
  induction l with
  | nil => intro h; simp at h
  | cons a l ih =>
    intro h
    by_cases hac : a = c
    · subst hac
      have hcount : 1 ≤ l.count a := by
        rw [List.count_cons_self] at h
        omega
      have hmem : a ∈ l := List.count_pos_iff.mp (by omega)
      have hlen : 0 < l.length := List.length_pos.mpr (List.ne_nil_of_mem hmem)
      refine ⟨0, by simp [position], by simp only [List.length_cons]; omega⟩
    · have h' : 2 ≤ l.count c := by
        rwa [List.count_cons_of_ne (Ne.symm hac)] at h
      obtain ⟨pos, hp, hne⟩ := ih h'
      refine ⟨pos + 1, by simp [position, hac, hp],
        by simp only [List.length_cons]; omega⟩

/-- C10: when the released code occurs at least twice in `holding_down`
(repeated presses are appended without deduplication), the release removes
the earliest occurrence — the one at the first-occurrence index, which is
never the last entry — via the out-of-order path: it emits a plain `-`
entry for the code, preceded by a `+` flush of the top entry exactly when
the flag is set, and never emits the combined `±` entry. -/
theorem duplicate_code_release (s : MachineState) (c : Nat)
    (h : 2 ≤ s.holding_down.count c) :
    ∃ pos top, position (fun x => x == c) s.holding_down = some pos ∧
      pos + 1 ≠ s.holding_down.length ∧
      s.holding_down.getLast? = some top ∧
      s.holding_down.erase c = s.holding_down.eraseIdx pos ∧
      mainStep s (releaseEvent c) = some (
        (if s.key_was_just_pressed then [print_key top '+'] else []) ++
          [print_key c '-'],
        ⟨s.holding_down.erase c, false⟩) := by
  obtain ⟨pos, hpos, hlast⟩ := position_of_count_two h
  have hmem : c ∈ s.holding_down := mem_of_position_some hpos
  obtain ⟨top, htop⟩ :=
    getLast?_some_of_ne_nil (List.ne_nil_of_mem hmem)
  have herase := eraseIdx_position_eq_erase c s.holding_down pos hpos
  refine ⟨pos, top, hpos, hlast, htop, herase.symm, ?_⟩
  by_cases hf : s.key_was_just_pressed = true
  · simp [mainStep, releaseEvent, is_key_event, is_key_press, is_key_release,
      EV_KEY, KEY_PRESS, KEY_RELEASE, hpos, hlast, hf, htop, herase]
  · simp [mainStep, releaseEvent, is_key_event, is_key_press, is_key_release,
      EV_KEY, KEY_PRESS, KEY_RELEASE, hpos, hlast, hf, herase]

/-- C10 witness: releasing 7 while holding `[7, 8, 7]` with the flag set. -/
theorem duplicate_code_release_witness :
    2 ≤ ([7, 8, 7] : List Nat).count 7 ∧
    ∃ pos top, position (fun x => x == 7) [7, 8, 7] = some pos ∧
      pos + 1 ≠ ([7, 8, 7] : List Nat).length ∧
      ([7, 8, 7] : List Nat).getLast? = some top ∧
      ([7, 8, 7] : List Nat).erase 7 = ([7, 8, 7] : List Nat).eraseIdx pos ∧
      mainStep ⟨[7, 8, 7], true⟩ (releaseEvent 7) = some (
        (if true then [print_key top '+'] else []) ++ [print_key 7 '-'],
        ⟨([7, 8, 7] : List Nat).erase 7, false⟩) :=
  ⟨by decide, duplicate_code_release ⟨[7, 8, 7], true⟩ 7 (by decide)⟩

end Keylogger
